import Mathlib

/-!
Verification of the MCTS chess engine in engine.py.

The file gives a shallow embedding of the engine and proves/refutes the
specified properties:

* the Node tree (class Node: move, wins, visits, untriedMoves,
  playerJustMoved, childNodes), its Update and AddChild operations;
* UCTSelectChild, modelled as the last element of a stable ascending sort by
  the real-valued UCT key (Python sorted(..., key)[-1]);
* rollout_policy with its heuristic weights, the degenerate-total fallback and
  the weighted sampler (random.choices is abstracted as a parameter wch);
* the UCT search driver: selection / expansion / simulation / backpropagation.
  The game-rules collaborator (python-chess Board) is abstracted as a Game
  structure; python randomness is a deterministic oracle f : Nat -> Nat, each
  random event consuming one value; the two unbounded while loops of the
  source receive explicit fuel (a result of none models a run that does not
  finish or crashes).  Board objects are mutated in place by push in the
  source, so boards live in a heap (List sigma) addressed by slot ids:
  rootstate.copy() allocates a fresh slot, push writes the working slot;
* the quantum variant: its grover_search (qiskit) is abstracted as a
  parameter of quantum_selection, and the two engines share the driver body
  UCT_run, instantiated with their respective expansion pickers and rollout
  weight tables;
* the opening table OPENINGS and get_opening_move over a concrete model of
  python-chess moves (str(move) is UCI; Move.from_uci parses UCI only).
-/

namespace Engine

/-- Abstraction of the python-chess Board collaborator: legal-move
enumeration, move application (value semantics: push gives the new board
value), terminal and result queries, side to move, and the tactical
predicates consumed by the rollout policy.  Moves are abstract, with the
from_square / to_square accessors the rollout policy reads. -/
structure Game (σ μ : Type) where
  legal_moves : σ → List μ
  push : σ → μ → σ
  is_game_over : σ → Bool
  result : σ → String
  turn : σ → Bool
  is_capture : σ → μ → Bool
  is_check : σ → Bool
  gives_check : σ → μ → Bool
  is_into_check : σ → μ → Bool
  is_pinned : σ → Bool → Nat → Bool
  is_castling : σ → μ → Bool
  from_square : μ → Nat
  to_square : μ → Nat

/-- Model of class Node (engine.py lines 5-13).  The parent pointer is not
stored: the tree is navigated structurally, and backpropagation is applied on
the way back up the recursion, which reaches exactly the ancestors the
source's while-parentNode loop reaches.  wins accumulates the float score as
an exact rational (every update is one of +1, -1, +0.5, 0). -/
inductive Node (μ : Type) where
  | mk (move : Option μ) (wins : ℚ) (visits : Nat) (untriedMoves : List μ)
       (playerJustMoved : Bool) (childNodes : List (Node μ))

variable {σ μ : Type}

mutual

/-- Decidable equality of nodes (structural). -/
def Node.decEq [DecidableEq μ] : (a b : Node μ) → Decidable (a = b)
  | .mk m1 w1 v1 u1 p1 c1, .mk m2 w2 v2 u2 p2 c2 =>
    if h1 : m1 = m2 then
      if h2 : w1 = w2 then
        if h3 : v1 = v2 then
          if h4 : u1 = u2 then
            if h5 : p1 = p2 then
              match Node.decEqList c1 c2 with
              | isTrue h6 => isTrue (by rw [h1, h2, h3, h4, h5, h6])
              | isFalse h6 => isFalse (by intro h; injection h; exact h6 (by assumption))
            else isFalse (by intro h; injection h; exact h5 (by assumption))
          else isFalse (by intro h; injection h; exact h4 (by assumption))
        else isFalse (by intro h; injection h; exact h3 (by assumption))
      else isFalse (by intro h; injection h; exact h2 (by assumption))
    else isFalse (by intro h; injection h; exact h1 (by assumption))

/-- Decidable equality of node lists (structural). -/
def Node.decEqList [DecidableEq μ] : (a b : List (Node μ)) → Decidable (a = b)
  | [], [] => isTrue rfl
  | [], _ :: _ => isFalse (by intro h; cases h)
  | _ :: _, [] => isFalse (by intro h; cases h)
  | a :: as, b :: bs =>
    match Node.decEq a b, Node.decEqList as bs with
    | isTrue h1, isTrue h2 => isTrue (by rw [h1, h2])
    | isFalse h1, _ => isFalse (by intro h; injection h; exact h1 (by assumption))
    | _, isFalse h2 => isFalse (by intro h; injection h; exact h2 (by assumption))

end

instance [DecidableEq μ] : DecidableEq (Node μ) := Node.decEq

/-- Projection to the move field. -/
def Node.move : Node μ → Option μ
  | .mk m _ _ _ _ _ => m

/-- Projection to the wins field. -/
def Node.wins : Node μ → ℚ
  | .mk _ w _ _ _ _ => w

/-- Projection to the visits field. -/
def Node.visits : Node μ → Nat
  | .mk _ _ v _ _ _ => v

/-- Projection to the untriedMoves field. -/
def Node.untriedMoves : Node μ → List μ
  | .mk _ _ _ u _ _ => u

/-- Projection to the playerJustMoved field. -/
def Node.playerJustMoved : Node μ → Bool
  | .mk _ _ _ _ pj _ => pj

/-- Projection to the childNodes field. -/
def Node.childNodes : Node μ → List (Node μ)
  | .mk _ _ _ _ _ cs => cs

/-- Model of Node.__init__(move, parent, state): untriedMoves is the full
legal-move list of state at creation, statistics start at zero, no children. -/
def Node.init (g : Game σ μ) (move : Option μ) (state : σ) : Node μ :=
  .mk move 0 0 (g.legal_moves state) (g.turn state) []

/-- Model of Node.Update(result) (engine.py lines 25-32): visits is always
incremented; wins gets +1 for "1-0", -1 for "0-1", +0.5 for "1/2-1/2", and is
left unchanged (no error is raised) for any other result string. -/
def Node.Update : Node μ → String → Node μ
  | .mk m w v u pj cs, result =>
    if result = "1-0" then .mk m (w + 1) (v + 1) u pj cs
    else if result = "0-1" then .mk m (w - 1) (v + 1) u pj cs
    else if result = "1/2-1/2" then .mk m (w + 1/2) (v + 1) u pj cs
    else .mk m w (v + 1) u pj cs

/-- Model of Node.AddChild(m, s) (engine.py lines 19-23): remove the first
occurrence of m from untriedMoves (Python list.remove) and append a fresh
child built from the post-move state s. -/
def Node.AddChild [DecidableEq μ] (g : Game σ μ) : Node μ → μ → σ → Node μ
  | .mk mv w v u pj cs, m, s => .mk mv w v (u.erase m) pj (cs ++ [Node.init g (some m) s])

/-- Accumulator loop behind argmaxLastIdx: scanning the remaining list l whose
head sits at absolute index i, with current best index bi and best key bk; a
new element whose key is greater than or equal to the current best replaces
it, so the final answer is the last element attaining the maximal key. -/
def argmaxAux [LinearOrder β] (key : α → β) : List α → Nat → Nat → β → Nat
  | [], _, bi, _ => bi
  | a :: l, i, bi, bk =>
    if bk ≤ key a then argmaxAux key l (i + 1) i (key a)
    else argmaxAux key l (i + 1) bi bk

/-- Model of the index of Python sorted(l, key=key)[-1]: sorted is a stable
ascending sort, so its last element is the last element of l attaining the
maximal key; none exactly when l is empty (where the source indexing [-1]
raises). -/
def argmaxLastIdx [LinearOrder β] (key : α → β) : List α → Option Nat
  | [] => none
  | a :: l => some (argmaxAux key l 1 0 (key a))

/-- Real-valued idealization of the float sort key of UCTSelectChild
(engine.py line 16): c.wins / c.visits + sqrt(2 * log(self.visits) / c.visits),
where parentVisits is self.visits. -/
noncomputable def uctKey (parentVisits : Nat) (c : Node μ) : ℝ :=
  (c.wins : ℝ) / (c.visits : ℝ) + Real.sqrt (2 * Real.log (parentVisits : ℝ) / (c.visits : ℝ))

/-- Model of Node.UCTSelectChild (engine.py lines 15-17):
sorted(self.childNodes, key=uct)[-1]. -/
noncomputable def Node.UCTSelectChild (n : Node μ) : Option (Node μ) :=
  (argmaxLastIdx (uctKey n.visits) n.childNodes).bind fun i => n.childNodes[i]?

/-- Model of random.choice(l): the oracle value r selects index r mod length;
none on the empty list, where the source raises. -/
def random_choice (r : Nat) (l : List α) : Option α := l[r % l.length]?

/-- Square constants chess.D4, E4, D5, E5 (0-based, a1 = 0): bound in
rollout_policy (engine.py line 36) but never used. -/
def center_squares : List Nat := [27, 28, 35, 36]

/-- Square constants chess.C3, G3, C6, G6, F3, F6 (engine.py lines 37-38). -/
def piece_development_squares : List Nat := [18, 22, 42, 46, 21, 45]

/-- Per-move heuristic weight of the base rollout_policy (engine.py lines
40-57): base 1, +10 capture, +5 side to move in check, +5 gives check, -20
walks into check, -5 origin square pinned, +5 castling, +3 development-square
destination.  Note: no clamping to 0 is applied anywhere. -/
def rollout_weight (g : Game σ μ) (board : σ) (move : μ) : Int :=
  1 + (if g.is_capture board move then 10 else 0)
    + (if g.is_check board then 5 else 0)
    + (if g.gives_check board move then 5 else 0)
    - (if g.is_into_check board move then 20 else 0)
    - (if g.is_pinned board (g.turn board) (g.from_square move) then 5 else 0)
    + (if g.is_castling board move then 5 else 0)
    + (if g.to_square move ∈ piece_development_squares then 3 else 0)

/-- Per-move heuristic weight of the quantum variant's rollout_policy
(engine.py lines 230-245): identical except the development-square bonus is
absent. -/
def rollout_weight_q (g : Game σ μ) (board : σ) (move : μ) : Int :=
  1 + (if g.is_capture board move then 10 else 0)
    + (if g.is_check board then 5 else 0)
    + (if g.gives_check board move then 5 else 0)
    - (if g.is_into_check board move then 20 else 0)
    - (if g.is_pinned board (g.turn board) (g.from_square move) then 5 else 0)
    + (if g.is_castling board move then 5 else 0)

/-- The weight list in legal-move order: probabilities = [weights[move] for
move in moves] with moves = list(weights.keys()).  Legal moves of a chess
board are pairwise distinct, so the move-keyed dict is a parallel list. -/
def rollout_weights (g : Game σ μ) (wf : σ → μ → Int) (board : σ) : List Int :=
  (g.legal_moves board).map (wf board)

/-- total_weight = sum(probabilities) (engine.py line 61). -/
def rollout_total (g : Game σ μ) (wf : σ → μ → Int) (board : σ) : Int :=
  (rollout_weights g wf board).sum

/-- The normalized list probabilities = [p / total_weight for p in
probabilities] (engine.py line 64), as exact rationals. -/
def rollout_probs (g : Game σ μ) (wf : σ → μ → Int) (board : σ) : List ℚ :=
  (rollout_weights g wf board).map fun p => (p : ℚ) / ((rollout_total g wf board : Int) : ℚ)

/-- Common body of the two rollout_policy functions, parameterized by the
weight table wf.  wch abstracts the weighted sampler
random.choices(moves, probabilities)[0]; it receives the (possibly negative)
normalized weights and one oracle value.  The uniform fallback
random.choice(moves) is taken exactly when total_weight == 0 (engine.py
line 62); for any other total, including negative ones, the weights go to the
sampler unclamped. -/
def rollout_policy_with (g : Game σ μ) (wf : σ → μ → Int)
    (wch : List μ → List ℚ → Nat → Option μ) (board : σ) (r : Nat) : Option μ :=
  if rollout_total g wf board = 0 then random_choice r (g.legal_moves board)
  else wch (g.legal_moves board) (rollout_probs g wf board) r

/-- rollout_policy of the base engine (engine.py lines 35-67). -/
def rollout_policy (g : Game σ μ) (wch : List μ → List ℚ → Nat → Option μ) :
    σ → Nat → Option μ :=
  rollout_policy_with g (rollout_weight g) wch

/-- rollout_policy of the quantum variant (engine.py lines 230-255). -/
def rollout_policy_q (g : Game σ μ) (wch : List μ → List ℚ → Nat → Option μ) :
    σ → Nat → Option μ :=
  rollout_policy_with g (rollout_weight_q g) wch

/-- Expansion move chooser of the base engine:
random.choice(node.untriedMoves) (engine.py line 85). -/
def uniform_pick (node : Node μ) (r : Nat) : Option μ := random_choice r node.untriedMoves

/-- Model of quantum_selection (engine.py lines 224-228): on a node with
untried moves, a uniform random untried move; otherwise grover_search over the
children's moves.  grover_search itself (qiskit circuitry) is abstracted as
the parameter grover. -/
def quantum_selection (grover : List (Option μ) → Option μ) (node : Node μ) (r : Nat) :
    Option μ :=
  if node.untriedMoves.isEmpty then grover (node.childNodes.map Node.move)
  else random_choice r node.untriedMoves

/-- Simulation loop of UCT (engine.py lines 89-91):
while not state.is_game_over(): state.push(rollout_policy(state)), with
explicit fuel; the working board object lives at heap slot sid and every push
writes it back.  Returns the terminal board value, the advanced oracle
counter and the heap. -/
def simulate (g : Game σ μ) (rpolicy : σ → Nat → Option μ) (f : Nat → Nat) :
    Nat → σ → Nat → List σ → Nat → Option (σ × Nat × List σ)
  | 0, b, k, store, _sid => if g.is_game_over b then some (b, k, store) else none
  | fuel + 1, b, k, store, sid =>
    if g.is_game_over b then some (b, k, store)
    else
      match rpolicy b (f k) with
      | none => none
      | some m => simulate g rpolicy f fuel (g.push b m) (k + 1) (store.set sid (g.push b m)) sid

/-- One iteration body of the UCT driver (engine.py lines 77-95), written as
a recursion over the tree: while the node is fully expanded and has children,
descend through the child chosen by UCTSelectChild (by index, so the updated
child can be written back) and push its move; then, if untried moves remain,
expand one (chosen by epick, which consumes one oracle value), simulate to a
terminal board and backpropagate state.result() into the new child; finally
each level applies Update on the way back up, so exactly the nodes on the
selection/expansion path are updated, deepest first, as the source's
while node != None loop does.  b is the current value of the working board
object (heap slot sid); fuel bounds the descent depth. -/
noncomputable def walk [DecidableEq μ] (g : Game σ μ) (rpolicy : σ → Nat → Option μ)
    (epick : Node μ → Nat → Option μ) (f : Nat → Nat) (sfuel : Nat) :
    Nat → Node μ → σ → Nat → List σ → Nat → Option (Node μ × String × Nat × List σ)
  | 0, _, _, _, _, _ => none
  | fuel + 1, Node.mk mv w v u pj cs, b, k, store, sid =>
    if u.isEmpty && !cs.isEmpty then
      match argmaxLastIdx (uctKey v) cs with
      | none => none
      | some i =>
        match cs[i]? with
        | none => none
        | some c =>
          match c.move with
          | none => none
          | some m =>
            match walk g rpolicy epick f sfuel fuel c (g.push b m) k
                (store.set sid (g.push b m)) sid with
            | none => none
            | some (c2, res, k2, store2) =>
              some (Node.Update (Node.mk mv w v u pj (cs.set i c2)) res, res, k2, store2)
    else if !u.isEmpty then
      match epick (Node.mk mv w v u pj cs) (f k) with
      | none => none
      | some m =>
        match simulate g rpolicy f sfuel (g.push b m) (k + 1)
            (store.set sid (g.push b m)) sid with
        | none => none
        | some (bT, k2, store2) =>
          let res := g.result bT
          some (Node.Update
                  (Node.mk mv w v (u.erase m) pj
                    (cs ++ [Node.Update (Node.init g (some m) (g.push b m)) res]))
                  res,
                res, k2, store2)
    else
      match simulate g rpolicy f sfuel b k store sid with
      | none => none
      | some (bT, k2, store2) =>
        some (Node.Update (Node.mk mv w v u pj cs) (g.result bT), g.result bT, k2, store2)

/-- One pass of the for-loop of UCT: read the current value of the rootstate
object (heap slot rootId), allocate a fresh copy slot (rootstate.copy()), and
run the iteration body on the copy. -/
noncomputable def one_iteration [DecidableEq μ] [Inhabited σ] (g : Game σ μ)
    (rpolicy : σ → Nat → Option μ) (epick : Node μ → Nat → Option μ) (f : Nat → Nat)
    (wfuel sfuel : Nat) (rootId : Nat) :
    Node μ × Nat × List σ → Option (Node μ × Nat × List σ) :=
  fun acc =>
    let b := acc.2.2.getD rootId default
    match walk g rpolicy epick f sfuel wfuel acc.1 b acc.2.1 (acc.2.2 ++ [b])
        acc.2.2.length with
    | none => none
    | some (t2, _res, k2, store2) => some (t2, k2, store2)

/-- The for-loop of UCT, run for the given number of iterations. -/
noncomputable def search_loop [DecidableEq μ] [Inhabited σ] (g : Game σ μ)
    (rpolicy : σ → Nat → Option μ) (epick : Node μ → Nat → Option μ) (f : Nat → Nat)
    (wfuel sfuel : Nat) (rootId : Nat) :
    Nat → Node μ × Nat × List σ → Option (Node μ × Nat × List σ)
  | 0, acc => some acc
  | n + 1, acc =>
    match one_iteration g rpolicy epick f wfuel sfuel rootId acc with
    | none => none
    | some acc2 => search_loop g rpolicy epick f wfuel sfuel rootId n acc2

/-- The common driver body of UCT (engine.py lines 70-97) and of the quantum
variant's UCT (lines 257-281): build the root from the current rootstate
value and run itermax iterations; returns the final tree, oracle counter and
heap.  The two source functions differ only in the expansion picker and the
rollout weight table, supplied as rpolicy / epick. -/
noncomputable def UCT_run [DecidableEq μ] [Inhabited σ] (g : Game σ μ)
    (rpolicy : σ → Nat → Option μ) (epick : Node μ → Nat → Option μ) (f : Nat → Nat)
    (wfuel sfuel : Nat) (store : List σ) (rootId : Nat) (itermax : Nat) :
    Option (Node μ × Nat × List σ) :=
  search_loop g rpolicy epick f wfuel sfuel rootId itermax
    (Node.init g none (store.getD rootId default), 0, store)

/-- Final move selection (engine.py line 97):
sorted(rootnode.childNodes, key=lambda c: c.visits)[-1].move. -/
def best_move (t : Node μ) : Option μ :=
  (argmaxLastIdx Node.visits t.childNodes).bind fun i => (t.childNodes[i]?).bind Node.move

/-- UCT(rootstate, itermax) of the base engine: the driver with uniform
random expansion and the development-square rollout weights, returning the
most-visited root child's move. -/
noncomputable def UCT [DecidableEq μ] [Inhabited σ] (g : Game σ μ)
    (wch : List μ → List ℚ → Nat → Option μ) (f : Nat → Nat) (wfuel sfuel : Nat)
    (store : List σ) (rootId : Nat) (itermax : Nat) : Option μ :=
  (UCT_run g (rollout_policy g wch) uniform_pick f wfuel sfuel store rootId itermax).bind
    fun acc => best_move acc.1

/-- UCT(rootstate, itermax) of the quantum variant: expansion goes through
quantum_selection (with the abstracted grover_search) and the rollout weights
lack the development bonus. -/
noncomputable def UCT_quantum [DecidableEq μ] [Inhabited σ] (g : Game σ μ)
    (wch : List μ → List ℚ → Nat → Option μ) (grover : List (Option μ) → Option μ)
    (f : Nat → Nat) (wfuel sfuel : Nat) (store : List σ) (rootId : Nat) (itermax : Nat) :
    Option μ :=
  (UCT_run g (rollout_policy_q g wch) (quantum_selection grover) f wfuel sfuel store
    rootId itermax).bind fun acc => best_move acc.1

/-- File letters of python-chess FILE_NAMES. -/
def FILE_NAMES : List Char := ['a', 'b', 'c', 'd', 'e', 'f', 'g', 'h']

/-- Rank digits of python-chess RANK_NAMES. -/
def RANK_NAMES : List Char := ['1', '2', '3', '4', '5', '6', '7', '8']

/-- python-chess square_name: file letter then rank digit of a 0-based square
index (a1 = 0, h8 = 63). -/
def square_name (sq : Nat) : String :=
  String.mk [FILE_NAMES.getD (sq % 8) 'a', RANK_NAMES.getD (sq / 8) '1']

/-- Concrete model of a python-chess Move: origin and destination square
indices plus an optional promotion piece type (1 = pawn .. 6 = king). -/
structure CMove where
  from_square : Nat
  to_square : Nat
  promotion : Option Nat
deriving DecidableEq

/-- Lowercase piece letters of python-chess PIECE_SYMBOLS (piece types
1 to 6). -/
def PIECE_SYMBOLS : List Char := ['p', 'n', 'b', 'r', 'q', 'k']

/-- python-chess piece_symbol for a piece type. -/
def piece_symbol (p : Nat) : String := String.mk [PIECE_SYMBOLS.getD (p - 1) 'p']

/-- Model of str(move) = Move.uci(): origin square name, destination square
name, promotion letter if any; the null move (all fields falsy) prints as
"0000". -/
def CMove.uci (m : CMove) : String :=
  match m.promotion with
  | some p => square_name m.from_square ++ square_name m.to_square ++ piece_symbol p
  | none =>
    if m.from_square = 0 ∧ m.to_square = 0 then "0000"
    else square_name m.from_square ++ square_name m.to_square

/-- Parse a two-character square name; none when either character is not a
valid file letter / rank digit (python-chess raises there). -/
def parse_square (s : List Char) : Option Nat :=
  match s with
  | [f, r] =>
    match FILE_NAMES.findIdx? (fun c => c == f), RANK_NAMES.findIdx? (fun c => c == r) with
    | some fi, some ri => some (ri * 8 + fi)
    | _, _ => none
  | _ => none

/-- Model of chess.Move.from_uci: accepts "0000", or four / five characters
naming two squares and an optional promotion letter; anything else (for
instance SAN strings such as "Nf3") raises InvalidMoveError, modelled as
none. -/
def CMove.from_uci (s : String) : Option CMove :=
  if s = "0000" then some ⟨0, 0, none⟩
  else
    match s.data with
    | [a, b, c, d] =>
      match parse_square [a, b], parse_square [c, d] with
      | some f, some t => some ⟨f, t, none⟩
      | _, _ => none
    | [a, b, c, d, p] =>
      match parse_square [a, b], parse_square [c, d],
          PIECE_SYMBOLS.findIdx? (fun x => x == p) with
      | some f, some t, some pi => some ⟨f, t, some (pi + 1)⟩
      | _, _, _ => none
    | _ => none

/-- The literal OPENINGS dict entries of engine.py lines 99-125, in source
order, duplicate keys included (a Python dict literal keeps the last value
for a repeated key). -/
def OPENINGS : List (String × String) := [
  ("e4 e5", "Nf3"),
  ("e4 e5 Nf3 Nc6", "Bb5"),
  ("e4 e5 Nf3 Nc6 Bb5 Nf6", "O-O"),
  ("e4 e5 Nf3 Nc6 Bb5 Nf6 O-O Nxe4", "d4"),
  ("e4 e5 Nf3 Nc6 Bb5 Nf6 O-O Nxe4 d4 Nd6", "Bxc6"),
  ("e4 e5 Nf3 Nc6 Bb5 Nf6 O-O Nxe4 d4 Nd6 Bxc6 dxc6", "dxe5"),
  ("e4 e5 Nf3 Nc6 Bb5 Nf6 O-O Nxe4 d4 Nd6 Bxc6 dxc6 dxe5 Nf5", "Qxd8+"),
  ("e4 e5 Nf3 Nc6 Bb5 Nf6 O-O Nxe4 d4 Nd6 Bxc6 dxc6 dxe5 Nf5 Qxd8+ Kxd8", "Nc3"),
  ("e4 c5", "Nf3"),
  ("e4 c5 Nf3 Nc6", "d4"),
  ("e4 c5 Nf3 Nc6 d4 cxd4", "Nxd4"),
  ("e4 c5 Nf3 Nc6 d4 cxd4 Nxd4 g6", "Nc3"),
  ("e4 c5 Nf3 Nc6 d4 cxd4 Nxd4 g6 Nc3 Bg7", "Be3"),
  ("e4 c5 Nf3 Nc6 d4 cxd4 Nxd4 g6 Nc3 Bg7 Be3 Nf6", "Bc4"),
  ("e4 c5", "Nf3"),
  ("e4 c5 Nf3 Nc6", "d4"),
  ("e4 c5 Nf3 Nc6 d4 cxd4", "Nxd4"),
  ("e4 c5 Nf3 Nc6 d4 cxd4 Nxd4 g6", "Nc3"),
  ("e4 c5 Nf3 Nc6 d4 cxd4 Nxd4 Bg7", "Be3"),
  ("e4 c5 Nf3 Nc6 d4 cxd4 Nxd4 Bg7 Be3 Nf6", "f3")]

/-- Python dict lookup over the literal entry list: membership is membership
among the keys, and the value of a repeated key is the last one. -/
def dict_get (l : List (String × String)) (k : String) : Option String :=
  (l.filterMap fun p => if p.1 = k then some p.2 else none).getLast?

/-- Model of get_opening_move (engine.py lines 127-133): render the played
move stack as space-joined str(move) notations (UCI), look it up by exact
match; on a hit the mapped value is fed to chess.Move.from_uci, which raises
(Except.error) on non-UCI values; on a miss the function returns None. -/
def get_opening_move (stack : List CMove) : Except String (Option CMove) :=
  let board_str := String.intercalate " " (stack.map CMove.uci)
  match dict_get OPENINGS board_str with
  | none => Except.ok none
  | some v =>
    match CMove.from_uci v with
    | some m => Except.ok (some m)
    | none => Except.error "InvalidMoveError"

/-- Outcome of the move-selection branch of play_game: an opening-table move,
or a fallthrough into the UCT search. -/
inductive Decision where
  | opening (m : CMove)
  | search
deriving DecidableEq

/-- The per-ply move-selection branch of play_game (engine.py lines 142-146):
if get_opening_move(board) is not None use it, else invoke UCT(board, 50). -/
def play_game_choice (stack : List CMove) : Except String Decision :=
  match get_opening_move stack with
  | Except.error e => Except.error e
  | Except.ok (some m) => Except.ok (Decision.opening m)
  | Except.ok none => Except.ok Decision.search

/-- All-nodes predicate over the statistics fields: P holds of
(wins, visits) at every node of the tree. -/
inductive AllNodes (P : ℚ → Nat → Prop) : Node μ → Prop where
  | node (mv : Option μ) (w : ℚ) (v : Nat) (u : List μ) (pj : Bool) (cs : List (Node μ)) :
      P w v → (∀ c ∈ cs, AllNodes P c) → AllNodes P (Node.mk mv w v u pj cs)

/-- Structural invariant of a search tree relative to the game rules: at a
node whose creation-time board is s, the untried moves together with the
moves of the children form a permutation of legal_moves(s) (the multiset
never changes after creation), every child carries a move, and every child
satisfies the invariant at its own creation-time board push(s, m). -/
inductive TreeInv (g : Game σ μ) : σ → Node μ → Prop where
  | node (s : σ) (mv : Option μ) (w : ℚ) (v : Nat) (u : List μ) (pj : Bool)
      (cs : List (Node μ)) :
      (u ++ cs.filterMap Node.move).Perm (g.legal_moves s) →
      (∀ c ∈ cs, c.move ≠ none) →
      (∀ c ∈ cs, ∀ m, c.move = some m → TreeInv g (g.push s m) c) →
      TreeInv g s (Node.mk mv w v u pj cs)

section ConcreteInstances

/-- Tiny two-move game used to exercise the driver on concrete inputs:
state 0 is the only non-terminal state, with legal moves 1 and 2; pushing a
move moves to that state, which is terminal; state 1 is a white win, all
others a black win. -/
def TG : Game Nat Nat where
  legal_moves := fun s => if s = 0 then [1, 2] else []
  push := fun _ m => m
  is_game_over := fun s => if s = 0 then false else true
  result := fun s => if s = 1 then "1-0" else "0-1"
  turn := fun _ => true
  is_capture := fun _ _ => false
  is_check := fun _ => false
  gives_check := fun _ _ => false
  is_into_check := fun _ _ => false
  is_pinned := fun _ _ _ => false
  is_castling := fun _ _ => false
  from_square := fun m => m
  to_square := fun m => m

/-- One-state game whose move 0 originates from a pinned square: its rollout
weight is 1 - 5 = -4 while move 1 keeps weight 1, so the total weight is the
negative number -3. -/
def CG : Game Unit Nat where
  legal_moves := fun _ => [0, 1]
  push := fun _ _ => ()
  is_game_over := fun _ => false
  result := fun _ => "*"
  turn := fun _ => true
  is_capture := fun _ _ => false
  is_check := fun _ => false
  gives_check := fun _ _ => false
  is_into_check := fun _ _ => false
  is_pinned := fun _ _ sq => if sq = 0 then true else false
  is_castling := fun _ _ => false
  from_square := fun m => m
  to_square := fun m => m

/-- One-state game whose two rollout weights are -19 (walks into check) and
+19 (capture, gives check, development destination), so the total weight is
exactly 0 and the uniform fallback branch is taken. -/
def ZG : Game Unit Nat where
  legal_moves := fun _ => [0, 1]
  push := fun _ _ => ()
  is_game_over := fun _ => false
  result := fun _ => "*"
  turn := fun _ => true
  is_capture := fun _ m => if m = 1 then true else false
  is_check := fun _ => false
  gives_check := fun _ m => if m = 1 then true else false
  is_into_check := fun _ m => if m = 0 then true else false
  is_pinned := fun _ _ _ => false
  is_castling := fun _ _ => false
  from_square := fun m => m
  to_square := fun m => if m = 1 then 21 else 0

/-- Deterministic oracle returning 0 for every draw. -/
def fZero : Nat → Nat := fun _ => 0

/-- Concrete weighted sampler that ignores the weights and picks by index,
used to instantiate the abstract wch in witnesses. -/
def wch_index : List Nat → List ℚ → Nat → Option Nat :=
  fun moves _ r => moves[r % moves.length]?

/-- Concrete sampler that always fails, used to make the sampler call
observable in the rollout-policy counterexample. -/
def wch_none : List Nat → List ℚ → Nat → Option Nat := fun _ _ _ => none

/-- Concrete grover stand-in returning nothing. -/
def grover0 : List (Option Nat) → Option Nat := fun _ => none

/-- Concrete grover stand-in returning the constant move 99. -/
def grover1 : List (Option Nat) → Option Nat := fun _ => some 99

end ConcreteInstances

/-! Basic facts about Update. -/

theorem Update_visits (n : Node μ) (res : String) : (n.Update res).visits = n.visits + 1 := by
  cases n with
  | mk m w v u pj cs =>
    simp only [Node.Update]
    split_ifs <;> rfl

theorem Update_move (n : Node μ) (res : String) : (n.Update res).move = n.move := by
  cases n with
  | mk m w v u pj cs =>
    simp only [Node.Update]
    split_ifs <;> rfl

theorem Update_untried (n : Node μ) (res : String) :
    (n.Update res).untriedMoves = n.untriedMoves := by
  cases n with
  | mk m w v u pj cs =>
    simp only [Node.Update]
    split_ifs <;> rfl

theorem Update_childNodes (n : Node μ) (res : String) :
    (n.Update res).childNodes = n.childNodes := by
  cases n with
  | mk m w v u pj cs =>
    simp only [Node.Update]
    split_ifs <;> rfl

theorem Update_wins_delta (n : Node μ) (res : String) :
    (n.Update res).wins - n.wins = 1 ∨ (n.Update res).wins - n.wins = -1 ∨
      (n.Update res).wins - n.wins = 1/2 ∨ (n.Update res).wins - n.wins = 0 := by
  cases n with
  | mk m w v u pj cs =>
    simp only [Node.Update]
    split_ifs <;> simp [Node.wins]

/-! Specification of argmaxLastIdx: it returns the index of the last element
attaining the maximal key, which is exactly the index of the element the
source reads as sorted(l, key=key)[-1] (stable ascending sort, last element,
ties resolved in favour of the latest input element). -/

theorem argmaxAux_of_all_lt [LinearOrder β] (key : α → β) :
    ∀ (l : List α) (i bi : Nat) (bk : β), (∀ b ∈ l, key b < bk) →
      argmaxAux key l i bi bk = bi
  | [], _, _, _, _ => rfl
  | a :: l, i, bi, bk, h => by
    simp only [argmaxAux, if_neg (not_le.mpr (h a (List.mem_cons_self a l)))]
    exact argmaxAux_of_all_lt key l (i + 1) bi bk fun b hb => h b (List.mem_cons_of_mem a hb)

theorem argmaxAux_of_exists_ge [LinearOrder β] (key : α → β) :
    ∀ (l : List α) (i bi : Nat) (bk : β), (∃ b ∈ l, bk ≤ key b) →
      ∃ p b, l[p]? = some b ∧ argmaxAux key l i bi bk = i + p ∧ bk ≤ key b ∧
        (∀ c ∈ l, key c ≤ key b) ∧ (∀ q c, p < q → l[q]? = some c → key c < key b)
  | [], _, _, _, h => by simp at h
  | a :: l, i, bi, bk, h => by
    by_cases h1 : bk ≤ key a
    · simp only [argmaxAux, if_pos h1]
      by_cases h2 : ∃ b ∈ l, key a ≤ key b
      · obtain ⟨p, b, hpb, hres, hle, hmax, hstrict⟩ :=
          argmaxAux_of_exists_ge key l (i + 1) i (key a) h2
        refine ⟨p + 1, b, by simpa using hpb, by rw [hres]; omega,
          le_trans h1 hle, ?_, ?_⟩
        · intro c hc
          rcases List.mem_cons.mp hc with rfl | hc
          · exact hle
          · exact hmax c hc
        · intro q c hq hqc
          cases q with
          | zero => omega
          | succ q2 => exact hstrict q2 c (by omega) (by simpa using hqc)
      · push_neg at h2
        rw [argmaxAux_of_all_lt key l (i + 1) i (key a) h2]
        refine ⟨0, a, by simp, by omega, h1, ?_, ?_⟩
        · intro c hc
          rcases List.mem_cons.mp hc with rfl | hc
          · exact le_refl _
          · exact (h2 c hc).le
        · intro q c hq hqc
          cases q with
          | zero => omega
          | succ q2 =>
            exact h2 c (List.mem_iff_getElem?.mpr ⟨q2, by simpa using hqc⟩)
    · simp only [argmaxAux, if_neg h1]
      have h2 : ∃ b ∈ l, bk ≤ key b := by
        obtain ⟨b, hb, hbk⟩ := h
        rcases List.mem_cons.mp hb with rfl | hb
        · exact absurd hbk h1
        · exact ⟨b, hb, hbk⟩
      obtain ⟨p, b, hpb, hres, hle, hmax, hstrict⟩ :=
        argmaxAux_of_exists_ge key l (i + 1) bi bk h2
      refine ⟨p + 1, b, by simpa using hpb, by rw [hres]; omega, hle, ?_, ?_⟩
      · intro c hc
        rcases List.mem_cons.mp hc with rfl | hc
        · exact (lt_of_lt_of_le (not_le.mp h1) hle).le
        · exact hmax c hc
      · intro q c hq hqc
        cases q with
        | zero => omega
        | succ q2 => exact hstrict q2 c (by omega) (by simpa using hqc)

theorem argmaxLastIdx_spec [LinearOrder β] (key : α → β) (L : List α) (j : Nat)
    (h : argmaxLastIdx key L = some j) :
    ∃ c, L[j]? = some c ∧ (∀ (p : Nat) (b : α), L[p]? = some b → key b ≤ key c) ∧
      (∀ (p : Nat) (b : α), j < p → L[p]? = some b → key b < key c) := by
  cases L with
  | nil => simp [argmaxLastIdx] at h
  | cons a l =>
    simp only [argmaxLastIdx, Option.some.injEq] at h
    by_cases h2 : ∃ b ∈ l, key a ≤ key b
    · obtain ⟨p, b, hpb, hres, hle, hmax, hstrict⟩ :=
        argmaxAux_of_exists_ge key l 1 0 (key a) h2
      have hj : j = p + 1 := by rw [← h, hres]; omega
      subst hj
      refine ⟨b, by simpa using hpb, ?_, ?_⟩
      · intro q c hqc
        cases q with
        | zero =>
          have hca : a = c := by simpa using hqc
          subst hca; exact hle
        | succ q2 =>
          exact hmax c (List.mem_iff_getElem?.mpr ⟨q2, by simpa using hqc⟩)
      · intro q c hq hqc
        cases q with
        | zero => omega
        | succ q2 => exact hstrict q2 c (by omega) (by simpa using hqc)
    · push_neg at h2
      rw [argmaxAux_of_all_lt key l 1 0 (key a) h2] at h
      have hj : j = 0 := h.symm
      subst hj
      refine ⟨a, by simp, ?_, ?_⟩
      · intro q c hqc
        cases q with
        | zero =>
          have hca : a = c := by simpa using hqc
          subst hca; exact le_refl _
        | succ q2 =>
          exact (h2 c (List.mem_iff_getElem?.mpr ⟨q2, by simpa using hqc⟩)).le
      · intro q c hq hqc
        cases q with
        | zero => omega
        | succ q2 =>
          exact h2 c (List.mem_iff_getElem?.mpr ⟨q2, by simpa using hqc⟩)

theorem argmaxLastIdx_of_ne_nil [LinearOrder β] (key : α → β) (L : List α) (hL : L ≠ []) :
    ∃ j, argmaxLastIdx key L = some j := by
  cases L with
  | nil => exact absurd rfl hL
  | cons a l => exact ⟨_, rfl⟩

/-- Claim C5.  For a node with children (all visited at least once, so the
Python float expression is defined), UCTSelectChild returns a child
maximizing wins/visits + sqrt(2 * ln(visits(parent)) / visits(child))
(exploration constant 1), and among the children attaining the maximum it
returns the most recently created one: every strictly later child in the
creation-ordered childNodes list scores strictly below it. -/
theorem UCTSelectChild_is_last_argmax (n : Node μ) (h1 : n.childNodes ≠ [])
    (h2 : ∀ c ∈ n.childNodes, 1 ≤ c.visits) :
    ∃ (i : Nat) (c : Node μ), n.UCTSelectChild = some c ∧ n.childNodes[i]? = some c ∧
      (∀ (p : Nat) (b : Node μ), n.childNodes[p]? = some b →
        uctKey n.visits b ≤ uctKey n.visits c) ∧
      (∀ (p : Nat) (b : Node μ), i < p → n.childNodes[p]? = some b →
        uctKey n.visits b < uctKey n.visits c) := by
  obtain ⟨j, hj⟩ := argmaxLastIdx_of_ne_nil (uctKey n.visits) n.childNodes h1
  obtain ⟨c, hc, hmax, hstrict⟩ := argmaxLastIdx_spec (uctKey n.visits) n.childNodes j hj
  exact ⟨j, c, by simp [Node.UCTSelectChild, hj, hc], hc, hmax, hstrict⟩

/-- Concrete parent node used in the selection witness: visits 1 (so the
exploration term is sqrt(2 * ln 1 / v) = 0) and two children with average
scores 0 and 1. -/
def selParent : Node Nat :=
  Node.mk none 0 1 [] true [Node.mk (some 1) 0 1 [] true [], Node.mk (some 2) 1 1 [] true []]

/-- Witness for UCTSelectChild_is_last_argmax at the concrete parent
selParent. -/
theorem UCTSelectChild_is_last_argmax_witness :
    ∃ (i : Nat) (c : Node Nat), selParent.UCTSelectChild = some c ∧
      selParent.childNodes[i]? = some c ∧
      (∀ (p : Nat) (b : Node Nat), selParent.childNodes[p]? = some b →
        uctKey selParent.visits b ≤ uctKey selParent.visits c) ∧
      (∀ (p : Nat) (b : Node Nat), i < p → selParent.childNodes[p]? = some b →
        uctKey selParent.visits b < uctKey selParent.visits c) :=
  UCTSelectChild_is_last_argmax selParent (by decide) (by decide)

/-- Claim C6.  Whenever UCT completes and returns a move, that move is the
move of the root child with the highest visits count (robust child), and
among equally-visited children it is the most recently created one: every
strictly later root child has strictly fewer visits. -/
theorem UCT_returns_most_visited_child [DecidableEq μ] [Inhabited σ] (g : Game σ μ)
    (wch : List μ → List ℚ → Nat → Option μ) (f : Nat → Nat) (wfuel sfuel : Nat)
    (store : List σ) (rootId itermax : Nat) (m : μ)
    (h : UCT g wch f wfuel sfuel store rootId itermax = some m) :
    ∃ (t : Node μ) (k : Nat) (st : List σ) (i : Nat) (c : Node μ),
      UCT_run g (rollout_policy g wch) uniform_pick f wfuel sfuel store rootId itermax =
        some (t, k, st) ∧
      t.childNodes[i]? = some c ∧ c.move = some m ∧
      (∀ (p : Nat) (b : Node μ), t.childNodes[p]? = some b → b.visits ≤ c.visits) ∧
      (∀ (p : Nat) (b : Node μ), i < p → t.childNodes[p]? = some b →
        b.visits < c.visits) := by
  unfold UCT at h
  obtain ⟨acc, hrun, hbest⟩ := Option.bind_eq_some.mp h
  obtain ⟨t, k, st⟩ := acc
  unfold best_move at hbest
  obtain ⟨i, hidx, hbm⟩ := Option.bind_eq_some.mp hbest
  obtain ⟨c, hc, hmove⟩ := Option.bind_eq_some.mp hbm
  obtain ⟨c2, hc2, hmax, hstrict⟩ := argmaxLastIdx_spec Node.visits t.childNodes i hidx
  rw [hc] at hc2
  obtain rfl : c = c2 := by simpa using hc2
  exact ⟨t, k, st, i, c, hrun, hc, hmove, hmax, hstrict⟩

/-- Witness for UCT_returns_most_visited_child: the two-iteration run on the
tiny game TG returns move 2, the move of the last of its two equally-visited
root children. -/
theorem UCT_returns_most_visited_child_witness :
    ∃ (t : Node Nat) (k : Nat) (st : List Nat) (i : Nat) (c : Node Nat),
      UCT_run TG (rollout_policy TG wch_index) uniform_pick fZero 3 3 [0] 0 2 =
        some (t, k, st) ∧
      t.childNodes[i]? = some c ∧ c.move = some 2 ∧
      (∀ (p : Nat) (b : Node Nat), t.childNodes[p]? = some b → b.visits ≤ c.visits) ∧
      (∀ (p : Nat) (b : Node Nat), i < p → t.childNodes[p]? = some b →
        b.visits < c.visits) :=
  UCT_returns_most_visited_child TG wch_index fZero 3 3 [0] 0 2 2 (by decide!)

/-! Structural facts about one iteration (walk) and the driver loop. -/

theorem walk_visits [DecidableEq μ] (g : Game σ μ) (rpolicy : σ → Nat → Option μ)
    (epick : Node μ → Nat → Option μ) (f : Nat → Nat) (sfuel : Nat) :
    ∀ (fuel : Nat) (t : Node μ) (b : σ) (k : Nat) (store : List σ) (sid : Nat)
      (t2 : Node μ) (res : String) (k2 : Nat) (store2 : List σ),
      walk g rpolicy epick f sfuel fuel t b k store sid = some (t2, res, k2, store2) →
      t2.visits = t.visits + 1 ∧ t2.move = t.move := by
  intro fuel t b k store sid t2 res k2 store2 h
  cases fuel with
  | zero => exact Option.noConfusion h
  | succ fuel =>
    cases t with
    | mk mv w v u pj cs =>
      simp only [walk] at h
      repeat' split at h
      all_goals
        first
          | exact Option.noConfusion h
          | (simp only [Option.some.injEq, Prod.mk.injEq] at h
             obtain ⟨h1, h2, h3, h4⟩ := h
             subst h1; subst h2; subst h3; subst h4
             exact ⟨by simp only [Node.Update]; split_ifs <;> rfl,
               by simp only [Node.Update]; split_ifs <;> rfl⟩)

theorem search_loop_visits [DecidableEq μ] [Inhabited σ] (g : Game σ μ)
    (rpolicy : σ → Nat → Option μ) (epick : Node μ → Nat → Option μ) (f : Nat → Nat)
    (wfuel sfuel rootId : Nat) :
    ∀ (n : Nat) (acc : Node μ × Nat × List σ) (t2 : Node μ) (k2 : Nat) (st2 : List σ),
      search_loop g rpolicy epick f wfuel sfuel rootId n acc = some (t2, k2, st2) →
      t2.visits = acc.1.visits + n := by
  intro n
  induction n with
  | zero =>
    intro acc t2 k2 st2 h
    obtain ⟨t0, k0, st0⟩ := acc
    simp only [search_loop, Option.some.injEq, Prod.mk.injEq] at h
    obtain ⟨rfl, rfl, rfl⟩ := h
    rfl
  | succ n ih =>
    intro acc t2 k2 st2 h
    simp only [search_loop] at h
    split at h
    · exact Option.noConfusion h
    · rename_i acc2 heq
      simp only [one_iteration] at heq
      split at heq
      · exact Option.noConfusion heq
      · rename_i tw resw kw storew heqw
        simp only [Option.some.injEq] at heq
        have hv := walk_visits g rpolicy epick f sfuel wfuel acc.1
          (acc.2.2.getD rootId default) acc.2.1 (acc.2.2 ++ [acc.2.2.getD rootId default])
          acc.2.2.length tw resw kw storew heqw
        have h2 := ih acc2 t2 k2 st2 h
        rw [← heq] at h2
        simp only at h2
        omega

/-- Claim C4.  Whenever the driver completes itermax iterations, the root
node's visits count equals itermax: every iteration's backpropagation loop
ends at the root (parent of the root is None) and applies exactly one Update
to it. -/
theorem UCT_root_visits [DecidableEq μ] [Inhabited σ] (g : Game σ μ)
    (rpolicy : σ → Nat → Option μ) (epick : Node μ → Nat → Option μ) (f : Nat → Nat)
    (wfuel sfuel : Nat) (store : List σ) (rootId itermax : Nat)
    (t : Node μ) (k : Nat) (st : List σ)
    (h : UCT_run g rpolicy epick f wfuel sfuel store rootId itermax = some (t, k, st)) :
    t.visits = itermax := by
  have hv := search_loop_visits g rpolicy epick f wfuel sfuel rootId itermax
    (Node.init g none (store.getD rootId default), 0, store) t k st h
  simpa [Node.init, Node.visits] using hv

/-- Witness for UCT_root_visits: after the two-iteration run on the tiny
game TG, the root carries exactly 2 visits. -/
theorem UCT_root_visits_witness :
    (Node.mk (none : Option Nat) 0 2 [] true
      [Node.mk (some 1) 1 1 [] true [], Node.mk (some 2) (-1) 1 [] true []]).visits = 2 :=
  UCT_root_visits TG (rollout_policy TG wch_index) uniform_pick fZero 3 3 [0] 0 2
    (Node.mk none 0 2 [] true
      [Node.mk (some 1) 1 1 [] true [], Node.mk (some 2) (-1) 1 [] true []])
    2 [0, 1, 2] (by decide!)

theorem simulate_frame (g : Game σ μ) (rpolicy : σ → Nat → Option μ) (f : Nat → Nat) :
    ∀ (sfuel : Nat) (b : σ) (k : Nat) (store : List σ) (sid : Nat)
      (bT : σ) (k2 : Nat) (store2 : List σ),
      simulate g rpolicy f sfuel b k store sid = some (bT, k2, store2) →
      store2.length = store.length ∧ ∀ (j : Nat), j ≠ sid → store2[j]? = store[j]? := by
  intro sfuel
  induction sfuel with
  | zero =>
    intro b k store sid bT k2 store2 h
    simp only [simulate] at h
    split at h
    · simp only [Option.some.injEq, Prod.mk.injEq] at h
      obtain ⟨rfl, rfl, rfl⟩ := h
      exact ⟨rfl, fun j _ => rfl⟩
    · exact Option.noConfusion h
  | succ sfuel ih =>
    intro b k store sid bT k2 store2 h
    simp only [simulate] at h
    split at h
    · simp only [Option.some.injEq, Prod.mk.injEq] at h
      obtain ⟨rfl, rfl, rfl⟩ := h
      exact ⟨rfl, fun j _ => rfl⟩
    · split at h
      · exact Option.noConfusion h
      · obtain ⟨hlen, hfr⟩ := ih _ _ _ _ _ _ _ h
        refine ⟨by simpa using hlen, fun j hj => ?_⟩
        rw [hfr j hj, List.getElem?_set_ne (Ne.symm hj)]

theorem walk_frame [DecidableEq μ] (g : Game σ μ) (rpolicy : σ → Nat → Option μ)
    (epick : Node μ → Nat → Option μ) (f : Nat → Nat) (sfuel : Nat) :
    ∀ (fuel : Nat) (t : Node μ) (b : σ) (k : Nat) (store : List σ) (sid : Nat)
      (t2 : Node μ) (res : String) (k2 : Nat) (store2 : List σ),
      walk g rpolicy epick f sfuel fuel t b k store sid = some (t2, res, k2, store2) →
      store2.length = store.length ∧ ∀ (j : Nat), j ≠ sid → store2[j]? = store[j]? := by
  intro fuel
  induction fuel with
  | zero =>
    intro t b k store sid t2 res k2 store2 h
    exact Option.noConfusion h
  | succ fuel ih =>
    intro t b k store sid t2 res k2 store2 h
    cases t with
    | mk mv w v u pj cs =>
      simp only [walk] at h
      repeat' split at h
      all_goals
        first
        | exact Option.noConfusion h
        | (simp only [Option.some.injEq, Prod.mk.injEq] at h
           obtain ⟨h1, h2, h3, h4⟩ := h
           subst h4
           first
           | (rename_i heqw
              obtain ⟨hlen, hfr⟩ := ih _ _ _ _ _ _ _ _ _ heqw
              refine ⟨by simpa using hlen, fun j hj => ?_⟩
              rw [hfr j hj, List.getElem?_set_ne (Ne.symm hj)])
           | (rename_i heqw
              obtain ⟨hlen, hfr⟩ := simulate_frame g rpolicy f _ _ _ _ _ _ _ _ heqw
              first
              | (refine ⟨by simpa using hlen, fun j hj => ?_⟩
                 rw [hfr j hj, List.getElem?_set_ne (Ne.symm hj)])
              | exact ⟨hlen, hfr⟩))

theorem search_loop_frame [DecidableEq μ] [Inhabited σ] (g : Game σ μ)
    (rpolicy : σ → Nat → Option μ) (epick : Node μ → Nat → Option μ) (f : Nat → Nat)
    (wfuel sfuel rootId : Nat) :
    ∀ (n : Nat) (acc : Node μ × Nat × List σ) (t2 : Node μ) (k2 : Nat) (st2 : List σ),
      search_loop g rpolicy epick f wfuel sfuel rootId n acc = some (t2, k2, st2) →
      acc.2.2.length ≤ st2.length ∧
        ∀ (j : Nat), j < acc.2.2.length → st2[j]? = acc.2.2[j]? := by
  intro n
  induction n with
  | zero =>
    intro acc t2 k2 st2 h
    obtain ⟨t0, k0, st0⟩ := acc
    simp only [search_loop, Option.some.injEq, Prod.mk.injEq] at h
    obtain ⟨rfl, rfl, rfl⟩ := h
    exact ⟨le_refl _, fun j _ => rfl⟩
  | succ n ih =>
    intro acc t2 k2 st2 h
    simp only [search_loop] at h
    split at h
    · exact Option.noConfusion h
    · rename_i acc2 heq
      simp only [one_iteration] at heq
      split at heq
      · exact Option.noConfusion heq
      · rename_i tw resw kw storew heqw
        simp only [Option.some.injEq] at heq
        obtain ⟨hlen, hfr⟩ := walk_frame g rpolicy epick f sfuel wfuel acc.1
          (acc.2.2.getD rootId default) acc.2.1 (acc.2.2 ++ [acc.2.2.getD rootId default])
          acc.2.2.length tw resw kw storew heqw
        obtain ⟨hlen2, hfr2⟩ := ih acc2 t2 k2 st2 h
        have hlenw : storew.length = acc.2.2.length + 1 := by simpa using hlen
        rw [← heq] at hlen2 hfr2
        dsimp only at hlen2 hfr2
        constructor
        · omega
        · intro j hj
          have hjs : j ≠ acc.2.2.length := by omega
          have e1 : st2[j]? = storew[j]? := hfr2 j (by omega)
          have e2 : storew[j]? = (acc.2.2 ++ [acc.2.2.getD rootId default])[j]? := hfr j hjs
          rw [e1, e2, List.getElem?_append_left hj]

/-- Claim C10.  The driver never mutates the rootstate object (nor any other
board object that existed before the search): each iteration copies the
current rootstate value into a freshly allocated heap slot
(rootstate.copy()), and every push during selection, expansion and
simulation writes that working slot only.  Hence every pre-existing slot,
rootId in particular, still holds its original board when the run
completes. -/
theorem UCT_run_preserves_rootstate [DecidableEq μ] [Inhabited σ] (g : Game σ μ)
    (rpolicy : σ → Nat → Option μ) (epick : Node μ → Nat → Option μ) (f : Nat → Nat)
    (wfuel sfuel : Nat) (store : List σ) (rootId itermax : Nat)
    (t : Node μ) (k : Nat) (st : List σ) (j : Nat) (hj : j < store.length)
    (h : UCT_run g rpolicy epick f wfuel sfuel store rootId itermax = some (t, k, st)) :
    st[j]? = store[j]? := by
  obtain ⟨hle, hfr⟩ := search_loop_frame g rpolicy epick f wfuel sfuel rootId itermax
    (Node.init g none (store.getD rootId default), 0, store) t k st h
  exact hfr j hj

/-- Witness for UCT_run_preserves_rootstate: the two-iteration run on TG
starts with the one-board heap [0], finishes with the heap [0, 1, 2] (two
working copies were allocated and pushed), and slot 0 — the rootstate — is
untouched. -/
theorem UCT_run_preserves_rootstate_witness :
    ([0, 1, 2] : List Nat)[0]? = ([0] : List Nat)[0]? :=
  UCT_run_preserves_rootstate TG (rollout_policy TG wch_index) uniform_pick fZero 3 3 [0] 0 2
    (Node.mk none 0 2 [] true
      [Node.mk (some 1) 1 1 [] true [], Node.mk (some 2) (-1) 1 [] true []])
    2 [0, 1, 2] 0 (by decide) (by decide!)

theorem Update_eq (n : Node μ) (res : String) :
    n.Update res = Node.mk n.move ((n.Update res).wins) (n.visits + 1) n.untriedMoves
      n.playerJustMoved n.childNodes := by
  cases n with
  | mk m w v u pj cs =>
    simp only [Node.Update]
    split_ifs <;> rfl

theorem AllNodes_Update {P : ℚ → Nat → Prop}
    (hP : ∀ (n : Node μ) (res : String),
      P n.wins n.visits → P (n.Update res).wins (n.Update res).visits)
    {n : Node μ} (res : String) (h : AllNodes P n) : AllNodes P (n.Update res) := by
  cases h with
  | node mv w v u pj cs hp hc =>
    rw [Update_eq]
    exact AllNodes.node _ _ _ _ _ _
      (Update_visits (Node.mk mv w v u pj cs) res ▸ hP (Node.mk mv w v u pj cs) res hp) hc

theorem walk_AllNodes [DecidableEq μ] (g : Game σ μ) (rpolicy : σ → Nat → Option μ)
    (epick : Node μ → Nat → Option μ) (f : Nat → Nat) (sfuel : Nat)
    (P : ℚ → Nat → Prop)
    (hP : ∀ (n : Node μ) (res : String),
      P n.wins n.visits → P (n.Update res).wins (n.Update res).visits)
    (hP0 : P 0 0) :
    ∀ (fuel : Nat) (t : Node μ) (b : σ) (k : Nat) (store : List σ) (sid : Nat)
      (t2 : Node μ) (res : String) (k2 : Nat) (store2 : List σ),
      walk g rpolicy epick f sfuel fuel t b k store sid = some (t2, res, k2, store2) →
      AllNodes P t → AllNodes P t2 := by
  intro fuel
  induction fuel with
  | zero =>
    intro t b k store sid t2 res k2 store2 h hall
    exact Option.noConfusion h
  | succ fuel ih =>
    intro t b k store sid t2 res k2 store2 h hall
    cases t with
    | mk mv w v u pj cs =>
      cases hall with
      | node _ _ _ _ _ _ hp hc =>
        simp only [walk] at h
        by_cases hguard : (u.isEmpty && !cs.isEmpty) = true
        · rw [if_pos hguard] at h
          cases harg : argmaxLastIdx (uctKey v) cs with
          | none => simp only [harg] at h; exact Option.noConfusion h
          | some i =>
            simp only [harg] at h
            cases hcs : cs[i]? with
            | none => simp only [hcs] at h; exact Option.noConfusion h
            | some c =>
              simp only [hcs] at h
              cases hmv : c.move with
              | none => simp only [hmv] at h; exact Option.noConfusion h
              | some m =>
                simp only [hmv] at h
                cases hrec : walk g rpolicy epick f sfuel fuel c (g.push b m) k
                    (store.set sid (g.push b m)) sid with
                | none => simp only [hrec] at h; exact Option.noConfusion h
                | some q =>
                  obtain ⟨c2, res2, kk, ss⟩ := q
                  have hchild := ih c (g.push b m) k (store.set sid (g.push b m)) sid
                    c2 res2 kk ss hrec (hc c (List.mem_iff_getElem?.mpr ⟨i, hcs⟩))
                  simp only [hrec, Option.some.injEq, Prod.mk.injEq] at h
                  obtain ⟨h1, h2, h3, h4⟩ := h
                  rw [← h1]
                  refine AllNodes_Update hP _ (AllNodes.node _ _ _ _ _ _ hp ?_)
                  intro cc hcc
                  rcases List.mem_or_eq_of_mem_set hcc with hcc | rfl
                  · exact hc cc hcc
                  · exact hchild
        · rw [if_neg hguard] at h
          by_cases hu : (!u.isEmpty) = true
          · rw [if_pos hu] at h
            cases hep : epick (Node.mk mv w v u pj cs) (f k) with
            | none => simp only [hep] at h; exact Option.noConfusion h
            | some m =>
              simp only [hep] at h
              cases hsim : simulate g rpolicy f sfuel (g.push b m) (k + 1)
                  (store.set sid (g.push b m)) sid with
              | none => simp only [hsim] at h; exact Option.noConfusion h
              | some q =>
                obtain ⟨bT, kk, ss⟩ := q
                simp only [hsim, Option.some.injEq, Prod.mk.injEq] at h
                obtain ⟨h1, h2, h3, h4⟩ := h
                rw [← h1]
                refine AllNodes_Update hP _ (AllNodes.node _ _ _ _ _ _ hp ?_)
                intro cc hcc
                rcases List.mem_append.mp hcc with hcc | hcc
                · exact hc cc hcc
                · obtain rfl : cc = Node.Update (Node.init g (some m) (g.push b m))
                      (g.result bT) := by simpa using hcc
                  refine AllNodes_Update hP _ ?_
                  exact AllNodes.node _ _ _ _ _ _ hP0 (by intro c2 hc2; simp at hc2)
          · rw [if_neg hu] at h
            cases hsim : simulate g rpolicy f sfuel b k store sid with
            | none => simp only [hsim] at h; exact Option.noConfusion h
            | some q =>
              obtain ⟨bT, kk, ss⟩ := q
              simp only [hsim, Option.some.injEq, Prod.mk.injEq] at h
              obtain ⟨h1, h2, h3, h4⟩ := h
              rw [← h1]
              exact AllNodes_Update hP _ (AllNodes.node _ _ _ _ _ _ hp hc)

theorem search_loop_AllNodes [DecidableEq μ] [Inhabited σ] (g : Game σ μ)
    (rpolicy : σ → Nat → Option μ) (epick : Node μ → Nat → Option μ) (f : Nat → Nat)
    (wfuel sfuel rootId : Nat) (P : ℚ → Nat → Prop)
    (hP : ∀ (n : Node μ) (res : String),
      P n.wins n.visits → P (n.Update res).wins (n.Update res).visits)
    (hP0 : P 0 0) :
    ∀ (n : Nat) (acc : Node μ × Nat × List σ) (t2 : Node μ) (k2 : Nat) (st2 : List σ),
      search_loop g rpolicy epick f wfuel sfuel rootId n acc = some (t2, k2, st2) →
      AllNodes P acc.1 → AllNodes P t2 := by
  intro n
  induction n with
  | zero =>
    intro acc t2 k2 st2 h hall
    obtain ⟨t0, k0, st0⟩ := acc
    simp only [search_loop, Option.some.injEq, Prod.mk.injEq] at h
    obtain ⟨rfl, rfl, rfl⟩ := h
    exact hall
  | succ n ih =>
    intro acc t2 k2 st2 h hall
    simp only [search_loop] at h
    split at h
    · exact Option.noConfusion h
    · rename_i acc2 heq
      simp only [one_iteration] at heq
      split at heq
      · exact Option.noConfusion heq
      · rename_i tw resw kw storew heqw
        simp only [Option.some.injEq] at heq
        have hw := walk_AllNodes g rpolicy epick f sfuel P hP hP0 wfuel acc.1
          (acc.2.2.getD rootId default) acc.2.1 (acc.2.2 ++ [acc.2.2.getD rootId default])
          acc.2.2.length tw resw kw storew heqw hall
        have := ih acc2 t2 k2 st2 h
        rw [← heq] at this
        exact this hw

theorem AllNodes_mono {P Q : ℚ → Nat → Prop} (hPQ : ∀ (w : ℚ) (v : Nat), P w v → Q w v) :
    ∀ {t : Node μ}, AllNodes P t → AllNodes Q t := by
  intro t h
  induction h with
  | node mv w v u pj cs hp _ ih => exact AllNodes.node mv w v u pj cs (hPQ w v hp) ih

/-- Claim C8.  Each call to Update increments visits by exactly 1 while
changing wins by exactly one of +1, -1, +0.5, 0 — and consequently, for
every node of the tree produced by a completed run, whenever visits ≥ 1 the
average score wins/visits lies within [-1, 1]. -/
theorem UCT_score_within_bounds [DecidableEq μ] [Inhabited σ] (g : Game σ μ)
    (rpolicy : σ → Nat → Option μ) (epick : Node μ → Nat → Option μ) (f : Nat → Nat)
    (wfuel sfuel : Nat) (store : List σ) (rootId itermax : Nat)
    (t : Node μ) (k : Nat) (st : List σ)
    (h : UCT_run g rpolicy epick f wfuel sfuel store rootId itermax = some (t, k, st)) :
    (∀ (n : Node μ) (res : String), (n.Update res).visits = n.visits + 1 ∧
      ((n.Update res).wins - n.wins = 1 ∨ (n.Update res).wins - n.wins = -1 ∨
       (n.Update res).wins - n.wins = 1/2 ∨ (n.Update res).wins - n.wins = 0)) ∧
    AllNodes (fun w v => 1 ≤ v → -1 ≤ w / (v : ℚ) ∧ w / (v : ℚ) ≤ 1) t := by
  constructor
  · intro n res
    exact ⟨Update_visits n res, Update_wins_delta n res⟩
  · have hinv : AllNodes (fun w v => -(v : ℚ) ≤ w ∧ w ≤ (v : ℚ)) t := by
      refine search_loop_AllNodes g rpolicy epick f wfuel sfuel rootId
        (fun w v => -(v : ℚ) ≤ w ∧ w ≤ (v : ℚ)) ?_ (by norm_num) itermax _ t k st h ?_
      · intro n res hp
        obtain ⟨hl, hr⟩ := hp
        rw [Update_visits]
        rcases Update_wins_delta n res with hd | hd | hd | hd <;>
          (push_cast; constructor <;> linarith [hd])
      · exact AllNodes.node _ _ _ _ _ _ (by norm_num) (by intro c hc; simp at hc)
    refine AllNodes_mono ?_ hinv
    intro w v hp hv
    obtain ⟨hl, hr⟩ := hp
    have hvpos : (0 : ℚ) < (v : ℚ) := by exact_mod_cast hv
    constructor
    · rw [le_div_iff₀ hvpos]; linarith
    · rw [div_le_one hvpos]; exact hr

/-- Witness for UCT_score_within_bounds at the concrete two-iteration run on
TG: the root has wins 0, visits 2, the children wins 1 and -1 with one visit
each, all averages within [-1, 1]. -/
theorem UCT_score_within_bounds_witness :
    (∀ (n : Node Nat) (res : String), (n.Update res).visits = n.visits + 1 ∧
      ((n.Update res).wins - n.wins = 1 ∨ (n.Update res).wins - n.wins = -1 ∨
       (n.Update res).wins - n.wins = 1/2 ∨ (n.Update res).wins - n.wins = 0)) ∧
    AllNodes (fun w v => 1 ≤ v → -1 ≤ w / (v : ℚ) ∧ w / (v : ℚ) ≤ 1)
      (Node.mk none 0 2 [] true
        [Node.mk (some 1) 1 1 [] true [], Node.mk (some 2) (-1) 1 [] true []]) :=
  UCT_score_within_bounds TG (rollout_policy TG wch_index) uniform_pick fZero 3 3 [0] 0 2
    (Node.mk none 0 2 [] true
      [Node.mk (some 1) 1 1 [] true [], Node.mk (some 2) (-1) 1 [] true []])
    2 [0, 1, 2] (by decide!)

theorem TreeInv_Update {g : Game σ μ} {s : σ} {n : Node μ} (res : String)
    (h : TreeInv g s n) : TreeInv g s (n.Update res) := by
  cases h with
  | node _ _ _ _ _ _ _ hPerm hSome hChild =>
    rw [Update_eq]
    exact TreeInv.node _ _ _ _ _ _ _ hPerm hSome hChild

theorem filterMap_move_set :
    ∀ (cs : List (Node μ)) (i : Nat) (c c2 : Node μ), cs[i]? = some c → c2.move = c.move →
      (cs.set i c2).filterMap Node.move = cs.filterMap Node.move
  | [], i, c, c2, h, _ => by simp at h
  | x :: xs, 0, c, c2, h, hm => by
    obtain rfl : x = c := by simpa using h
    simp only [List.set_cons_zero, List.filterMap_cons, hm]
  | x :: xs, i + 1, c, c2, h, hm => by
    have hrec := filterMap_move_set xs i c c2 (by simpa using h) hm
    simp only [List.set_cons_succ, List.filterMap_cons, hrec]

theorem length_filterMap_move :
    ∀ (cs : List (Node μ)), (∀ c ∈ cs, c.move ≠ none) →
      (cs.filterMap Node.move).length = cs.length
  | [], _ => rfl
  | x :: xs, h => by
    have hx := h x (List.mem_cons_self x xs)
    cases hmv : x.move with
    | none => exact absurd hmv hx
    | some m =>
      simp [List.filterMap_cons, hmv,
        length_filterMap_move xs fun c hc => h c (List.mem_cons_of_mem x hc)]

theorem walk_TreeInv [DecidableEq μ] (g : Game σ μ) (rpolicy : σ → Nat → Option μ)
    (epick : Node μ → Nat → Option μ) (f : Nat → Nat) (sfuel : Nat)
    (hep : ∀ (n : Node μ) (r : Nat) (m : μ), n.untriedMoves ≠ [] →
      epick n r = some m → m ∈ n.untriedMoves) :
    ∀ (fuel : Nat) (t : Node μ) (b : σ) (k : Nat) (store : List σ) (sid : Nat)
      (t2 : Node μ) (res : String) (k2 : Nat) (store2 : List σ),
      walk g rpolicy epick f sfuel fuel t b k store sid = some (t2, res, k2, store2) →
      TreeInv g b t → TreeInv g b t2 := by
  intro fuel
  induction fuel with
  | zero =>
    intro t b k store sid t2 res k2 store2 h hinv
    exact Option.noConfusion h
  | succ fuel ih =>
    intro t b k store sid t2 res k2 store2 h hinv
    cases t with
    | mk mv w v u pj cs =>
      cases hinv with
      | node _ _ _ _ _ _ _ hPerm hSome hChild =>
        simp only [walk] at h
        by_cases hguard : (u.isEmpty && !cs.isEmpty) = true
        · rw [if_pos hguard] at h
          cases harg : argmaxLastIdx (uctKey v) cs with
          | none => simp only [harg] at h; exact Option.noConfusion h
          | some i =>
            simp only [harg] at h
            cases hcs : cs[i]? with
            | none => simp only [hcs] at h; exact Option.noConfusion h
            | some c =>
              simp only [hcs] at h
              cases hmv : c.move with
              | none => simp only [hmv] at h; exact Option.noConfusion h
              | some m =>
                simp only [hmv] at h
                cases hrec : walk g rpolicy epick f sfuel fuel c (g.push b m) k
                    (store.set sid (g.push b m)) sid with
                | none => simp only [hrec] at h; exact Option.noConfusion h
                | some q =>
                  obtain ⟨c2, res2, kk, ss⟩ := q
                  have hcmem : c ∈ cs := List.mem_iff_getElem?.mpr ⟨i, hcs⟩
                  have hchild2 := ih c (g.push b m) k (store.set sid (g.push b m)) sid
                    c2 res2 kk ss hrec (hChild c hcmem m hmv)
                  have hc2move : c2.move = c.move :=
                    (walk_visits g rpolicy epick f sfuel fuel c (g.push b m) k
                      (store.set sid (g.push b m)) sid c2 res2 kk ss hrec).2
                  simp only [hrec, Option.some.injEq, Prod.mk.injEq] at h
                  obtain ⟨h1, h2, h3, h4⟩ := h
                  rw [← h1]
                  refine TreeInv_Update _ (TreeInv.node _ _ _ _ _ _ _ ?_ ?_ ?_)
                  · rw [filterMap_move_set cs i c c2 hcs hc2move]
                    exact hPerm
                  · intro cc hcc
                    rcases List.mem_or_eq_of_mem_set hcc with hcc | rfl
                    · exact hSome cc hcc
                    · rw [hc2move, hmv]; exact fun hx => Option.noConfusion hx
                  · intro cc hcc m2 hm2
                    rcases List.mem_or_eq_of_mem_set hcc with hcc | rfl
                    · exact hChild cc hcc m2 hm2
                    · rw [hc2move, hmv] at hm2
                      obtain rfl : m = m2 := by simpa using hm2
                      exact hchild2
        · rw [if_neg hguard] at h
          by_cases hu : (!u.isEmpty) = true
          · rw [if_pos hu] at h
            cases hepick : epick (Node.mk mv w v u pj cs) (f k) with
            | none => simp only [hepick] at h; exact Option.noConfusion h
            | some m =>
              simp only [hepick] at h
              cases hsim : simulate g rpolicy f sfuel (g.push b m) (k + 1)
                  (store.set sid (g.push b m)) sid with
              | none => simp only [hsim] at h; exact Option.noConfusion h
              | some q =>
                obtain ⟨bT, kk, ss⟩ := q
                simp only [hsim, Option.some.injEq, Prod.mk.injEq] at h
                obtain ⟨h1, h2, h3, h4⟩ := h
                rw [← h1]
                have hune : u ≠ [] := by
                  intro hx
                  rw [hx] at hu
                  simp at hu
                have hmem : m ∈ u := hep (Node.mk mv w v u pj cs) (f k) m hune hepick
                set child0 := Node.Update (Node.init g (some m) (g.push b m)) (g.result bT)
                  with hchild0
                have hchild0move : child0.move = some m := by
                  rw [hchild0, Update_move]; rfl
                have hchild0inv : TreeInv g (g.push b m) child0 :=
                  TreeInv_Update _ (TreeInv.node _ _ _ _ _ _ _ (by simp) (by simp) (by simp))
                refine TreeInv_Update _ (TreeInv.node _ _ _ _ _ _ _ ?_ ?_ ?_)
                · have hfm : (cs ++ [child0]).filterMap Node.move =
                      cs.filterMap Node.move ++ [m] := by
                    rw [List.filterMap_append]
                    simp [List.filterMap_cons, hchild0move]
                  rw [hfm]
                  have hstep1 : (u.erase m ++ (cs.filterMap Node.move ++ [m])).Perm
                      (m :: (u.erase m ++ cs.filterMap Node.move)) :=
                    (List.Perm.append_left _ (List.perm_append_singleton m _)).trans
                      List.perm_middle
                  have hstep2 : ((m :: u.erase m) ++ cs.filterMap Node.move).Perm
                      (u ++ cs.filterMap Node.move) :=
                    List.Perm.append_right _ (List.perm_cons_erase hmem).symm
                  exact (hstep1.trans hstep2).trans hPerm
                · intro cc hcc
                  rcases List.mem_append.mp hcc with hcc | hcc
                  · exact hSome cc hcc
                  · obtain rfl : cc = child0 := by simpa using hcc
                    rw [hchild0move]
                    exact fun hx => Option.noConfusion hx
                · intro cc hcc m2 hm2
                  rcases List.mem_append.mp hcc with hcc | hcc
                  · exact hChild cc hcc m2 hm2
                  · obtain rfl : cc = child0 := by simpa using hcc
                    rw [hchild0move] at hm2
                    obtain rfl : m = m2 := by simpa using hm2
                    exact hchild0inv
          · rw [if_neg hu] at h
            cases hsim : simulate g rpolicy f sfuel b k store sid with
            | none => simp only [hsim] at h; exact Option.noConfusion h
            | some q =>
              obtain ⟨bT, kk, ss⟩ := q
              simp only [hsim, Option.some.injEq, Prod.mk.injEq] at h
              obtain ⟨h1, h2, h3, h4⟩ := h
              rw [← h1]
              exact TreeInv_Update _ (TreeInv.node _ _ _ _ _ _ _ hPerm hSome hChild)

theorem search_loop_TreeInv [DecidableEq μ] [Inhabited σ] (g : Game σ μ)
    (rpolicy : σ → Nat → Option μ) (epick : Node μ → Nat → Option μ) (f : Nat → Nat)
    (wfuel sfuel rootId : Nat)
    (hep : ∀ (n : Node μ) (r : Nat) (m : μ), n.untriedMoves ≠ [] →
      epick n r = some m → m ∈ n.untriedMoves) (b0 : σ) :
    ∀ (n : Nat) (acc : Node μ × Nat × List σ) (t2 : Node μ) (k2 : Nat) (st2 : List σ),
      search_loop g rpolicy epick f wfuel sfuel rootId n acc = some (t2, k2, st2) →
      rootId < acc.2.2.length →
      acc.2.2.getD rootId default = b0 →
      TreeInv g b0 acc.1 → TreeInv g b0 t2 := by
  intro n
  induction n with
  | zero =>
    intro acc t2 k2 st2 h hlt hb0 hinv
    obtain ⟨t0, k0, st0⟩ := acc
    simp only [search_loop, Option.some.injEq, Prod.mk.injEq] at h
    obtain ⟨rfl, rfl, rfl⟩ := h
    exact hinv
  | succ n ih =>
    intro acc t2 k2 st2 h hlt hb0 hinv
    simp only [search_loop] at h
    split at h
    · exact Option.noConfusion h
    · rename_i acc2 heq
      simp only [one_iteration] at heq
      split at heq
      · exact Option.noConfusion heq
      · rename_i tw resw kw storew heqw
        simp only [Option.some.injEq] at heq
        rw [hb0] at heqw
        have hinvw : TreeInv g b0 tw :=
          walk_TreeInv g rpolicy epick f sfuel hep wfuel acc.1 b0 acc.2.1
            (acc.2.2 ++ [b0]) acc.2.2.length tw resw kw storew heqw hinv
        obtain ⟨hlen, hfr⟩ := walk_frame g rpolicy epick f sfuel wfuel acc.1 b0 acc.2.1
          (acc.2.2 ++ [b0]) acc.2.2.length tw resw kw storew heqw
        have hlenw : storew.length = acc.2.2.length + 1 := by simpa using hlen
        have hroot2 : storew[rootId]? = acc.2.2[rootId]? := by
          rw [hfr rootId (by omega), List.getElem?_append_left hlt]
        have hb02 : storew.getD rootId default = b0 := by
          rw [List.getD_eq_getElem?_getD, hroot2, ← List.getD_eq_getElem?_getD, hb0]
        have := ih acc2 t2 k2 st2 h
        rw [← heq] at this
        exact this (by dsimp only; omega) (by dsimp only; exact hb02) hinvw

/-- Claim C7.  For every node of the tree produced by a completed run: the
untried moves together with the children's moves are a permutation of the
legal-move list at the node's creation state (the multiset never changes);
when legal moves are pairwise distinct this union has no duplicates (so no
move is both untried and expanded, and none appears twice); and the number
of children never exceeds the number of legal moves at creation.  The first
conjunct ties the invariant to the concrete run; the second interprets the
invariant at an arbitrary node, and applies recursively to every subtree
because TreeInv is recursive. -/
theorem UCT_tree_partition [DecidableEq μ] [Inhabited σ] (g : Game σ μ)
    (rpolicy : σ → Nat → Option μ) (epick : Node μ → Nat → Option μ) (f : Nat → Nat)
    (wfuel sfuel : Nat) (store : List σ) (rootId itermax : Nat)
    (t : Node μ) (k : Nat) (st : List σ)
    (hnodup : ∀ s, (g.legal_moves s).Nodup)
    (hroot : rootId < store.length)
    (hep : ∀ (n : Node μ) (r : Nat) (m : μ), n.untriedMoves ≠ [] →
      epick n r = some m → m ∈ n.untriedMoves)
    (h : UCT_run g rpolicy epick f wfuel sfuel store rootId itermax = some (t, k, st)) :
    TreeInv g (store.getD rootId default) t ∧
    ∀ (s : σ) (mv : Option μ) (w : ℚ) (v : Nat) (u : List μ) (pj : Bool)
        (cs : List (Node μ)), TreeInv g s (Node.mk mv w v u pj cs) →
      (u ++ cs.filterMap Node.move).Perm (g.legal_moves s) ∧
      (u ++ cs.filterMap Node.move).Nodup ∧
      cs.length ≤ (g.legal_moves s).length := by
  constructor
  · exact search_loop_TreeInv g rpolicy epick f wfuel sfuel rootId hep
      (store.getD rootId default) itermax _ t k st h hroot rfl
      (TreeInv.node _ _ _ _ _ _ _ (by simp) (by simp) (by simp))
  · intro s mv w v u pj cs hinv
    cases hinv with
    | node _ _ _ _ _ _ _ hPerm hSome hChild =>
      refine ⟨hPerm, hPerm.nodup_iff.mpr (hnodup s), ?_⟩
      have hlen := hPerm.length_eq
      rw [List.length_append, length_filterMap_move cs hSome] at hlen
      omega

/-- Witness for UCT_tree_partition at the one-iteration run on TG: the root
keeps untried [2] and one child with move 1, partitioning its legal moves
[1, 2]. -/
theorem UCT_tree_partition_witness :
    TreeInv TG (([0] : List Nat).getD 0 default)
      (Node.mk none 1 1 [2] true [Node.mk (some 1) 1 1 [] true []]) ∧
    ∀ (s : Nat) (mv : Option Nat) (w : ℚ) (v : Nat) (u : List Nat) (pj : Bool)
        (cs : List (Node Nat)), TreeInv TG s (Node.mk mv w v u pj cs) →
      (u ++ cs.filterMap Node.move).Perm (TG.legal_moves s) ∧
      (u ++ cs.filterMap Node.move).Nodup ∧
      cs.length ≤ (TG.legal_moves s).length :=
  UCT_tree_partition TG (rollout_policy TG wch_index) uniform_pick fZero 3 3 [0] 0 1
    (Node.mk none 1 1 [2] true [Node.mk (some 1) 1 1 [] true []]) 1 [0, 1]
    (by intro s; by_cases hs : s = 0 <;> simp [TG, hs])
    (by decide)
    (by intro n r m _ hm; exact List.mem_iff_getElem?.mpr ⟨_, hm⟩)
    (by decide!)

theorem quantum_selection_agree (grover : List (Option μ) → Option μ) (n : Node μ)
    (r : Nat) (h : n.untriedMoves ≠ []) :
    quantum_selection grover n r = random_choice r n.untriedMoves := by
  simp [quantum_selection, List.isEmpty_iff, h]

theorem walk_epick_congr [DecidableEq μ] (g : Game σ μ) (rpolicy : σ → Nat → Option μ)
    (ep1 ep2 : Node μ → Nat → Option μ) (f : Nat → Nat) (sfuel : Nat)
    (hagree : ∀ (n : Node μ) (r : Nat), n.untriedMoves ≠ [] → ep1 n r = ep2 n r) :
    ∀ (fuel : Nat) (t : Node μ) (b : σ) (k : Nat) (store : List σ) (sid : Nat),
      walk g rpolicy ep1 f sfuel fuel t b k store sid =
        walk g rpolicy ep2 f sfuel fuel t b k store sid := by
  intro fuel
  induction fuel with
  | zero => intro t b k store sid; rfl
  | succ fuel ih =>
    intro t b k store sid
    cases t with
    | mk mv w v u pj cs =>
      simp only [walk]
      by_cases hguard : (u.isEmpty && !cs.isEmpty) = true
      · rw [if_pos hguard, if_pos hguard]
        cases harg : argmaxLastIdx (uctKey v) cs with
        | none => rfl
        | some i =>
          simp only
          cases hcs : cs[i]? with
          | none => rfl
          | some c =>
            simp only
            cases hmv : c.move with
            | none => rfl
            | some m =>
              simp only
              rw [ih c (g.push b m) k (store.set sid (g.push b m)) sid]
      · rw [if_neg hguard, if_neg hguard]
        by_cases hu : (!u.isEmpty) = true
        · rw [if_pos hu, if_pos hu]
          have hune : u ≠ [] := by
            intro hx
            rw [hx] at hu
            simp at hu
          rw [hagree (Node.mk mv w v u pj cs) (f k) hune]
        · rw [if_neg hu, if_neg hu]

theorem search_loop_epick_congr [DecidableEq μ] [Inhabited σ] (g : Game σ μ)
    (rpolicy : σ → Nat → Option μ) (ep1 ep2 : Node μ → Nat → Option μ) (f : Nat → Nat)
    (wfuel sfuel rootId : Nat)
    (hagree : ∀ (n : Node μ) (r : Nat), n.untriedMoves ≠ [] → ep1 n r = ep2 n r) :
    ∀ (n : Nat) (acc : Node μ × Nat × List σ),
      search_loop g rpolicy ep1 f wfuel sfuel rootId n acc =
        search_loop g rpolicy ep2 f wfuel sfuel rootId n acc := by
  intro n
  induction n with
  | zero => intro acc; rfl
  | succ n ih =>
    intro acc
    simp only [search_loop, one_iteration]
    rw [walk_epick_congr g rpolicy ep1 ep2 f sfuel hagree]
    cases hw : walk g rpolicy ep2 f sfuel wfuel acc.1 (acc.2.2.getD rootId default)
        acc.2.1 (acc.2.2 ++ [acc.2.2.getD rootId default]) acc.2.2.length with
    | none => rfl
    | some q =>
      obtain ⟨tw, resw, kw, sw⟩ := q
      simp only
      exact ih (tw, kw, sw)

/-- Claim C9.  In the quantum-variant engine grover_search is functionally
unreachable: (i) on any node with a non-empty untried-move list,
quantum_selection returns the uniform random choice among the untried moves,
for every grover function; (ii) the quantum search result is independent of
the grover parameter altogether (expansion is attempted only when untried
moves exist, so the grover branch is never exercised); (iii) the quantum
engine's search equals the same engine run with the plain engine's uniform
random expansion picker. -/
theorem quantum_grover_unreachable [DecidableEq μ] [Inhabited σ] :
    (∀ (grover : List (Option μ) → Option μ) (n : Node μ) (r : Nat),
      n.untriedMoves ≠ [] →
      quantum_selection grover n r = random_choice r n.untriedMoves) ∧
    (∀ (g : Game σ μ) (wch : List μ → List ℚ → Nat → Option μ)
      (grover1 grover2 : List (Option μ) → Option μ) (f : Nat → Nat)
      (wfuel sfuel : Nat) (store : List σ) (rootId itermax : Nat),
      UCT_quantum g wch grover1 f wfuel sfuel store rootId itermax =
        UCT_quantum g wch grover2 f wfuel sfuel store rootId itermax) ∧
    (∀ (g : Game σ μ) (wch : List μ → List ℚ → Nat → Option μ)
      (grover : List (Option μ) → Option μ) (f : Nat → Nat)
      (wfuel sfuel : Nat) (store : List σ) (rootId itermax : Nat),
      UCT_quantum g wch grover f wfuel sfuel store rootId itermax =
        (UCT_run g (rollout_policy_q g wch) uniform_pick f wfuel sfuel store rootId
          itermax).bind fun acc => best_move acc.1) := by
  have hkey : ∀ (g : Game σ μ) (wch : List μ → List ℚ → Nat → Option μ)
      (grover : List (Option μ) → Option μ) (f : Nat → Nat)
      (wfuel sfuel : Nat) (store : List σ) (rootId itermax : Nat),
      UCT_quantum g wch grover f wfuel sfuel store rootId itermax =
        (UCT_run g (rollout_policy_q g wch) uniform_pick f wfuel sfuel store rootId
          itermax).bind fun acc => best_move acc.1 := by
    intro g wch grover f wfuel sfuel store rootId itermax
    unfold UCT_quantum UCT_run
    rw [search_loop_epick_congr g (rollout_policy_q g wch) (quantum_selection grover)
      uniform_pick f wfuel sfuel rootId
      (fun n r h => quantum_selection_agree grover n r h)]
  exact ⟨fun grover n r h => quantum_selection_agree grover n r h,
    fun g wch g1 g2 f wf sf store rid it => by rw [hkey g wch g1, hkey g wch g2],
    hkey⟩

/-- Witness for quantum_grover_unreachable at concrete inputs: a node with
untried moves [5, 6], and the two-iteration quantum runs on TG with two
different grover stand-ins. -/
theorem quantum_grover_unreachable_witness :
    quantum_selection grover1 (Node.mk (none : Option Nat) 0 0 [5, 6] true []) 0 =
      random_choice 0 (Node.mk (none : Option Nat) 0 0 [5, 6] true []).untriedMoves ∧
    UCT_quantum TG wch_index grover0 fZero 3 3 [0] 0 2 =
      UCT_quantum TG wch_index grover1 fZero 3 3 [0] 0 2 ∧
    UCT_quantum TG wch_index grover0 fZero 3 3 [0] 0 2 =
      (UCT_run TG (rollout_policy_q TG wch_index) uniform_pick fZero 3 3 [0] 0 2).bind
        fun acc => best_move acc.1 :=
  ⟨(@quantum_grover_unreachable Nat Nat _ _).1 grover1
      (Node.mk none 0 0 [5, 6] true []) 0 (by decide),
   (@quantum_grover_unreachable Nat Nat _ _).2.1 TG wch_index grover0 grover1 fZero
      3 3 [0] 0 2,
   (@quantum_grover_unreachable Nat Nat _ _).2.2 TG wch_index grover0 fZero 3 3 [0] 0 2⟩

theorem intercalate_go_data (s : String) :
    ∀ (as : List String) (acc : String), ∃ tail : List Char,
      (String.intercalate.go acc s as).data = acc.data ++ tail
  | [], acc => ⟨[], by simp [String.intercalate.go]⟩
  | a :: as, acc => by
    obtain ⟨tail, htail⟩ := intercalate_go_data s as (acc ++ s ++ a)
    refine ⟨s.data ++ a.data ++ tail, ?_⟩
    rw [String.intercalate.go, htail]
    simp [String.data_append, List.append_assoc]

theorem FILE_NAMES_getD_ne_space (n : Nat) : FILE_NAMES.getD n 'a' ≠ ' ' := by
  by_cases h : n < 8
  · interval_cases n <;> decide
  · rw [List.getD_eq_getElem?_getD, List.getElem?_eq_none (by simp [FILE_NAMES]; omega)]
    decide

theorem uci_third_char (m : CMove) :
    ∃ c, (CMove.uci m).data[2]? = some c ∧ c ≠ ' ' := by
  obtain ⟨fs, ts, pr⟩ := m
  cases pr with
  | some p =>
    refine ⟨FILE_NAMES.getD (ts % 8) 'a', ?_, FILE_NAMES_getD_ne_space _⟩
    simp [CMove.uci, square_name, piece_symbol, String.data_append]
  | none =>
    by_cases h0 : fs = 0 ∧ ts = 0
    · refine ⟨'0', ?_, by decide⟩
      obtain ⟨rfl, rfl⟩ := h0
      simp [CMove.uci]
    · refine ⟨FILE_NAMES.getD (ts % 8) 'a', ?_, FILE_NAMES_getD_ne_space _⟩
      simp [CMove.uci, h0, square_name, String.data_append]

theorem opening_table_unreachable (stack : List CMove) :
    dict_get OPENINGS (String.intercalate " " (stack.map CMove.uci)) = none := by
  have hne : (String.intercalate " " (stack.map CMove.uci)).data[2]? ≠ some ' ' := by
    cases stack with
    | nil => simp [String.intercalate]
    | cons m rest =>
      obtain ⟨tail, htail⟩ := intercalate_go_data " " (rest.map CMove.uci) (CMove.uci m)
      obtain ⟨c, hc, hcs⟩ := uci_third_char m
      have hidx : 2 < (CMove.uci m).data.length := (List.getElem?_eq_some.mp hc).1
      rw [show String.intercalate " " ((m :: rest).map CMove.uci) =
        String.intercalate.go (CMove.uci m) " " (rest.map CMove.uci) from rfl]
      rw [htail, List.getElem?_append_left hidx, hc]
      simp [hcs]
  have hkeys : ∀ p ∈ OPENINGS, p.1.data[2]? = some ' ' := by decide
  unfold dict_get
  have hempty : (OPENINGS.filterMap fun p =>
      if p.1 = String.intercalate " " (stack.map CMove.uci) then some p.2 else none) = [] := by
    rw [List.filterMap_eq_nil_iff]
    intro p hp
    rw [if_neg]
    intro he
    apply hne
    rw [← he]
    exact hkeys p hp
  rw [hempty]
  rfl

/-- Claim C1 (code_bug evidence).  The spec scenario says that after the
opening sequence e4 e5 the table lookup must return Nf3 and bypass the
search.  On the code this fails: the move stack is rendered with str(move),
which is UCI ("e2e4 e7e5"), no OPENINGS key is of this shape, so
get_opening_move returns None and play_game falls through to UCT.  Moreover
the table is dead code: for EVERY move stack the rendered string has a
non-space third character (a UCI move name is at least four characters)
while every OPENINGS key has a space there, so get_opening_move returns None
on all inputs (last conjunct); and even on a hypothetical key hit, the
mapped SAN value "Nf3" would be fed to chess.Move.from_uci, which rejects
it. -/
theorem opening_lookup_no_hit_after_e4_e5 :
    get_opening_move [⟨12, 28, none⟩, ⟨52, 36, none⟩] = Except.ok none ∧
    play_game_choice [⟨12, 28, none⟩, ⟨52, 36, none⟩] = Except.ok Decision.search ∧
    String.intercalate " " ([CMove.mk 12 28 none, CMove.mk 52 36 none].map CMove.uci) =
      "e2e4 e7e5" ∧
    CMove.from_uci "Nf3" = none ∧
    ∀ (stack : List CMove), get_opening_move stack = Except.ok none :=
  ⟨rfl, rfl, rfl, rfl, fun stack => by
    simp only [get_opening_move, opening_table_unreachable stack]⟩

/-- Claim C2, counterexample.  On the board CG (a legal non-capturing,
non-checking move of a pinned piece plus one plain move), move 0 carries
weight 1 - 5 = -4; the total weight is -3, which is ≤ 0, yet the uniform
fallback is NOT taken (it would yield some 0): instead the sampler wch is
invoked and receives the normalized probabilities [4/3, -1/3], i.e. a
negative weight reaches the sampler.  This refutes both halves of the claim
(clamping to a minimum of 0; uniform fallback whenever the sum is ≤ 0). -/
theorem rollout_policy_clamp_counterexample :
    rollout_weight CG () 0 = -4 ∧
    rollout_total CG (rollout_weight CG) () = -3 ∧
    rollout_probs CG (rollout_weight CG) () = [4/3, -1/3] ∧
    rollout_policy CG wch_none () 0 = none ∧
    random_choice 0 (CG.legal_moves ()) = some 0 :=
  ⟨by decide, by decide, by decide!, by decide, by decide⟩

/-- Claim C2, amended.  rollout_policy applies no clamping: each move's
weight is the raw heuristic total, which always lies in [-24, 29] and can be
negative; the uniform fallback is taken exactly when the total weight equals
0, and for every other total (negative ones included) the normalized,
possibly negative weights are handed to the sampler. -/
theorem rollout_policy_no_clamping (g : Game σ μ) (wch : List μ → List ℚ → Nat → Option μ)
    (board : σ) (r : Nat) :
    (∀ m, -24 ≤ rollout_weight g board m ∧ rollout_weight g board m ≤ 29) ∧
    (rollout_total g (rollout_weight g) board = 0 →
      rollout_policy g wch board r = random_choice r (g.legal_moves board)) ∧
    (rollout_total g (rollout_weight g) board ≠ 0 →
      rollout_policy g wch board r =
        wch (g.legal_moves board) (rollout_probs g (rollout_weight g) board) r) := by
  refine ⟨fun m => ?_, fun h => ?_, fun h => ?_⟩
  · unfold rollout_weight
    split_ifs <;> omega
  · simp [rollout_policy, rollout_policy_with, h]
  · simp [rollout_policy, rollout_policy_with, h]

/-- Witness for rollout_policy_no_clamping at concrete inputs: the weight
bound at CG's pinned move, the fallback branch at the zero-total board ZG,
and the sampler branch at the negative-total board CG. -/
theorem rollout_policy_no_clamping_witness :
    (-24 ≤ rollout_weight CG () 0 ∧ rollout_weight CG () 0 ≤ 29) ∧
    rollout_policy ZG wch_none () 0 = random_choice 0 (ZG.legal_moves ()) ∧
    rollout_policy CG wch_none () 0 =
      wch_none (CG.legal_moves ()) (rollout_probs CG (rollout_weight CG) ()) 0 :=
  ⟨(rollout_policy_no_clamping CG wch_none () 0).1 0,
   (rollout_policy_no_clamping ZG wch_none () 0).2.1 (by decide),
   (rollout_policy_no_clamping CG wch_none () 0).2.2 (by decide)⟩

/-- Claim C3, counterexample.  Update with the unrecognized result "*"
returns normally: visits is incremented and wins is left unchanged.  No
error of any kind is raised and the search is not aborted, refuting the
claim that an unrecognized outcome is a fatal error. -/
theorem Update_unknown_result_counterexample :
    Node.Update (Node.mk (none : Option Nat) 0 0 [] true []) "*" =
      Node.mk none 0 1 [] true [] := by decide!

/-- Claim C3, amended.  For every result string outside the three recognized
outcomes, Update silently increments visits by 1 and applies the default
score adjustment of 0 (wins unchanged); nothing aborts. -/
theorem Update_unknown_result_spec (n : Node μ) (res : String)
    (h1 : res ≠ "1-0") (h2 : res ≠ "0-1") (h3 : res ≠ "1/2-1/2") :
    n.Update res =
      Node.mk n.move n.wins (n.visits + 1) n.untriedMoves n.playerJustMoved n.childNodes := by
  cases n with
  | mk m w v u pj cs =>
    simp [Node.Update, h1, h2, h3, Node.move, Node.wins, Node.visits, Node.untriedMoves,
      Node.playerJustMoved, Node.childNodes]

/-- Witness for Update_unknown_result_spec at the concrete result "*". -/
theorem Update_unknown_result_spec_witness :
    Node.Update (Node.mk (some 7) (1/2) 3 [4] false []) "*" =
      Node.mk (some 7) (1/2) 4 [4] false [] :=
  Update_unknown_result_spec (Node.mk (some 7) (1/2) 3 [4] false []) "*"
    (by decide) (by decide) (by decide)

end Engine
